import Mathlib

/-!
Verification of the hybrid retrieval and caching core of the Qonfido RAG
backend (`backend/app`): a shallow embedding of the Python source into Lean,
together with theorems settling the specification's claims about it.

Conventions used throughout:
* Python floats are modelled as exact rationals (`ℚ`).
* Python dictionaries keyed by strings are modelled as association lists
  (`List (String × _)`), front = oldest insertion (as in `OrderedDict`).
* External collaborators (the BM25 scoring engine `rank_bm25.BM25Okapi`, the
  ChromaDB vector engine, the Cohere rerank service) are modelled as opaque
  inputs: their outputs are parameters of the embedded functions, exactly as
  the surrounding Python code consumes them.
-/

namespace Qonfido

/-! ## Generic list machinery

`sortDesc` models Python's stable `list.sort(key=..., reverse=True)`:
a stable insertion sort, descending by key.  `pyEnum i` models Python's
`enumerate(xs, i)`.  `dedupKeepFirst` is the linearization we fix for the
Python set union `set(a) | set(b)` (Python's set iteration order is
unspecified; we keep first occurrences in appearance order). -/

def insertDesc {α : Type} (key : α → ℚ) (x : α) : List α → List α
  | [] => [x]
  | y :: ys => if key x < key y then y :: insertDesc key x ys else x :: y :: ys

def sortDesc {α : Type} (key : α → ℚ) : List α → List α
  | [] => []
  | x :: xs => insertDesc key x (sortDesc key xs)

def pyEnum {α : Type} (i : ℕ) : List α → List (ℕ × α)
  | [] => []
  | x :: xs => (i, x) :: pyEnum (i + 1) xs

def dedupKeepFirst : List String → List String
  | [] => []
  | x :: xs => x :: (dedupKeepFirst xs).filter (fun y => decide (y ≠ x))

/-! ## Hybrid search (`app/core/retrieval/hybrid.py`)

`SearchResult` models the common shape of `LexicalSearchResult` and
`SemanticSearchResult` (fields `id`, `text`, `score`, `metadata`, `source`);
the two origin result lists consumed by `HybridSearcher.search` are lists of
this shape.  Python `metadata` dicts are carried opaquely as association
lists. -/

structure SearchResult where
  id : String
  text : String
  score : ℚ
  metadata : List (String × String)
  source : String
  deriving DecidableEq, Repr

structure HybridSearchResult where
  id : String
  text : String
  score : ℚ
  lexical_score : Option ℚ
  semantic_score : Option ℚ
  lexical_rank : Option ℕ
  semantic_rank : Option ℕ
  metadata : List (String × String)
  source : String
  deriving DecidableEq, Repr

/-- Models the Python dict built by
`for rank, result in enumerate(results, i + 1): map[result.id] = (rank, result)`:
lookup of `d` yields the 1-based rank and result of the **last** occurrence of
`d` (later insertions overwrite earlier ones). -/

def rankMapAux (d : String) : ℕ → List SearchResult → Option (ℕ × SearchResult)
  | _, [] => none
  | i, r :: rs =>
    match rankMapAux d (i + 1) rs with
    | some p => some p
    | none => if r.id = d then some (i + 1, r) else none

def rankMap (rs : List SearchResult) (d : String) : Option (ℕ × SearchResult) :=
  rankMapAux d 0 rs

/-- Models the body of the `for doc_id in all_ids:` loop of
`HybridSearcher.search` (hybrid.py lines 128-173): the four-way match
flattens the two sequential `if doc_id in ..._map:` blocks, including the
Python-truthiness check `if not text:` (true exactly for the empty string)
that lets the semantic copy of `text`/`metadata`/`source` win when the
lexical text is empty. -/

def fuseOne (lex sem : List SearchResult) (alpha rrfK : ℚ) (d : String) :
    HybridSearchResult :=
  match rankMap lex d, rankMap sem d with
  | none, none =>
    { id := d, text := "", score := 0, lexical_score := none, semantic_score := none,
      lexical_rank := none, semantic_rank := none, metadata := [], source := "unknown" }
  | some (rl, r), none =>
    { id := d, text := r.text, score := (1 - alpha) * (1 / (rrfK + (rl : ℚ))),
      lexical_score := some r.score, semantic_score := none,
      lexical_rank := some rl, semantic_rank := none,
      metadata := r.metadata, source := r.source }
  | none, some (rs, s) =>
    { id := d, text := s.text, score := alpha * (1 / (rrfK + (rs : ℚ))),
      lexical_score := none, semantic_score := some s.score,
      lexical_rank := none, semantic_rank := some rs,
      metadata := s.metadata, source := s.source }
  | some (rl, r), some (rs, s) =>
    { id := d,
      text := if r.text = "" then s.text else r.text,
      score := (1 - alpha) * (1 / (rrfK + (rl : ℚ))) + alpha * (1 / (rrfK + (rs : ℚ))),
      lexical_score := some r.score, semantic_score := some s.score,
      lexical_rank := some rl, semantic_rank := some rs,
      metadata := if r.text = "" then s.metadata else r.metadata,
      source := if r.text = "" then s.source else r.source }

/-- Models `all_ids = set(lexical_map.keys()) | set(semantic_map.keys())`,
linearized in first-appearance order (Python set iteration order is
unspecified). -/

def allIds (lex sem : List SearchResult) : List String :=
  dedupKeepFirst (lex.map (·.id) ++ sem.map (·.id))

/-- Models the `scored_results` list built by `HybridSearcher.search` before
sorting. -/

def fuseCandidates (lex sem : List SearchResult) (alpha rrfK : ℚ) :
    List HybridSearchResult :=
  (allIds lex sem).map (fuseOne lex sem alpha rrfK)

/-- Models `HybridSearcher.search` (hybrid.py lines 113-183) as a function of
the two origin result lists returned by the two retrieval calls (each fetched
with `fetch_k = top_k * 3`): build rank maps, fuse by RRF, stable-sort
descending by fused score, truncate to `top_k`. -/

def hybridSearch (lex sem : List SearchResult) (topK : ℕ) (alpha rrfK : ℚ) :
    List HybridSearchResult :=
  (sortDesc (fun r => r.score) (fuseCandidates lex sem alpha rrfK)).take topK

/-! ## Example fixtures for witnesses and counterexamples -/

def exL1 : SearchResult :=
  { id := "dA", text := "alpha text", score := 2, metadata := [], source := "faq" }

def exS1 : SearchResult :=
  { id := "dB", text := "beta text", score := 1/2, metadata := [], source := "fund" }

def exL2 : SearchResult :=
  { id := "dX", text := "first lexical hit", score := 3, metadata := [], source := "faq" }

def exL3 : SearchResult :=
  { id := "dY", text := "second lexical hit", score := 1, metadata := [], source := "fund" }

def exS2 : SearchResult :=
  { id := "dY", text := "vector copy of dY", score := 9/10, metadata := [], source := "fund" }

/-! ## In-memory cache (`app/services/cache.py`)

`InMemoryCache` keeps an `OrderedDict` from string keys to entries; we model
it as an association list whose front is the least-recently-used end
(`popitem(last=False)` pops the front, `move_to_end` moves to the back).
Timestamps (`time.time()`) are rationals threaded explicitly. -/

structure CacheEntry (α : Type) where
  value : α
  created_at : ℚ
  ttl : ℚ
  deriving DecidableEq

/-- Models `self._cache.get(key)` on the ordered dict (no LRU promotion). -/

def cacheLookup {α : Type} (c : List (String × CacheEntry α)) (k : String) :
    Option (CacheEntry α) :=
  (c.find? (fun p => decide (p.1 = k))).map (·.2)

/-- Models `self._cache.move_to_end(key)`: the entry of `key` moves to the
most-recently-used end, everything else keeps its order. -/

def moveToEnd {α : Type} (c : List (String × CacheEntry α)) (k : String) :
    List (String × CacheEntry α) :=
  match cacheLookup c k with
  | none => c
  | some e => c.filter (fun p => decide (p.1 ≠ k)) ++ [(k, e)]

/-- Models `InMemoryCache._is_expired`: `time.time() > entry.created_at +
entry.ttl` — a strict comparison. -/

def isExpiredAt {α : Type} (now : ℚ) (e : CacheEntry α) : Bool :=
  decide (e.created_at + e.ttl < now)

/-- Models `InMemoryCache.get` (cache.py lines 53-66): miss returns `None`;
an expired entry is deleted (`del self._cache[key]`) and `None` returned; a
hit promotes the entry to most-recently-used and returns its value.  Returns
the result together with the updated cache state. -/

def cacheGet {α : Type} (c : List (String × CacheEntry α)) (k : String)
    (now : ℚ) : Option α × List (String × CacheEntry α) :=
  match cacheLookup c k with
  | none => (none, c)
  | some e =>
    if isExpiredAt now e then (none, c.filter (fun p => decide (p.1 ≠ k)))
    else (some e.value, moveToEnd c k)

/-- Models the entry created by `InMemoryCache.set`: `ttl or
self.default_ttl` is Python `or`, so a ttl of `0` (falsy) also falls back to
the default. -/

def newCacheEntry {α : Type} (v : α) (ttl : Option ℚ) (now defaultTtl : ℚ) :
    CacheEntry α :=
  { value := v, created_at := now,
    ttl := match ttl with
           | none => defaultTtl
           | some t => if t = 0 then defaultTtl else t }

/-- Models the state of the dict after the `move_to_end`/assignment steps of
`InMemoryCache.set`: the key (if present) is first promoted to the end, then
the assignment overwrites its entry in place — net effect: every old entry
for `key` is gone and the fresh entry sits at the most-recently-used end. -/

def cacheSetBody {α : Type} (c : List (String × CacheEntry α)) (k : String)
    (v : α) (ttl : Option ℚ) (now defaultTtl : ℚ) :
    List (String × CacheEntry α) :=
  ((if (cacheLookup c k).isSome then moveToEnd c k else c).filter
      (fun p => decide (p.1 ≠ k)))
    ++ [(k, newCacheEntry v ttl now defaultTtl)]

/-- Models `InMemoryCache.set` (cache.py lines 68-83): insert/overwrite as in
`cacheSetBody`, then `if len(self._cache) > self.max_size:
self._cache.popitem(last=False)` evicts the least-recently-used entry. -/

def cacheSet {α : Type} (c : List (String × CacheEntry α)) (k : String)
    (v : α) (ttl : Option ℚ) (now defaultTtl : ℚ) (maxSize : ℕ) :
    List (String × CacheEntry α) :=
  if maxSize < (cacheSetBody c k v ttl now defaultTtl).length
  then (cacheSetBody c k v ttl now defaultTtl).drop 1
  else cacheSetBody c k v ttl now defaultTtl

/-! ## Cache fixtures -/

def exEntry7 : CacheEntry ℕ := { value := 7, created_at := 0, ttl := 5 }

def exC1 : List (String × CacheEntry ℕ) := [("k", exEntry7)]

def exEntryA : CacheEntry ℕ := { value := 1, created_at := 0, ttl := 50 }

def exEntryB : CacheEntry ℕ := { value := 2, created_at := 0, ttl := 50 }

def exC2 : List (String × CacheEntry ℕ) := [("a", exEntryA), ("b", exEntryB)]

/-! ## Lexical search (`app/core/retrieval/lexical.py`)

`LexicalSearcher` holds the indexed documents and, when `index_documents`
has run, the `BM25Okapi` index.  The index is third-party code
(`rank_bm25`), so we model it as an opaque scoring oracle: a function from
the tokenized query to the per-document score list, exactly the shape
`self._index.get_scores(query_tokens)` returns. -/

structure Doc where
  id : String
  text : String
  metadata : List (String × String)
  source : Option String
  deriving DecidableEq, Repr

structure LexicalSearchResult where
  id : String
  text : String
  score : ℚ
  metadata : List (String × String)
  source : String
  deriving DecidableEq, Repr

structure LexicalSearcher where
  index : Option (List String → List ℚ)
  documents : List Doc

/-- Accumulating whitespace split: models Python `text.split()` (split on
whitespace runs, dropping empty tokens); the original's extra
`[t.strip() for t in ... if t.strip()]` is the identity on `split()`
output since those tokens contain no whitespace. -/

def splitTokens : List Char → List Char → List String
  | [], acc => if acc.isEmpty then [] else [String.mk acc.reverse]
  | c :: cs, acc =>
    if c.isWhitespace then
      if acc.isEmpty then splitTokens cs []
      else String.mk acc.reverse :: splitTokens cs []
    else splitTokens cs (c :: acc)

/-- Models `LexicalSearcher._tokenize`: lower-case, replace every character
outside `[a-z0-9\s]` by a space (`re.sub`), split on whitespace.  Lowering
is per-character ASCII lowering. -/

def tokenize (text : String) : List String :=
  splitTokens
    (text.data.map (fun c =>
      let lc := c.toLower
      if ('a' ≤ lc ∧ lc ≤ 'z') ∨ ('0' ≤ lc ∧ lc ≤ '9') ∨ lc.isWhitespace
      then lc else ' '))
    []

def mkLexResult (doc : Doc) (score : ℚ) : LexicalSearchResult :=
  { id := doc.id, text := doc.text, score := score,
    metadata := doc.metadata, source := doc.source.getD "unknown" }

/-- Models `if source_filter and doc.get("source") != source_filter:
continue`. -/

def sourceMismatch (sourceFilter : Option String) (doc : Doc) : Bool :=
  match sourceFilter with
  | none => false
  | some f => decide (doc.source ≠ some f)

/-- Models the result-collection loop of `LexicalSearcher.search` (lexical.py
lines 102-123) over the descending-sorted `(score, idx)` pairs: skip
non-positive scores, skip filter mismatches, stop once `len(results) >=
top_k` *after* an append (so `top_k = 0` still yields one result, as in the
Python).  Each kept result is paired with its document index `idx` so that
the tie-order theorem can speak about original document positions; the
out-of-range `docs.get?` case cannot occur when the oracle returns one score
per document. -/

def lexLoop (docs : List Doc) (sourceFilter : Option String) (topK : ℕ) :
    List (ℚ × ℕ) → ℕ → List (ℕ × LexicalSearchResult)
  | [], _ => []
  | (score, idx) :: rest, count =>
    if score ≤ 0 then lexLoop docs sourceFilter topK rest count
    else
      match docs.get? idx with
      | none => lexLoop docs sourceFilter topK rest count
      | some doc =>
        if sourceMismatch sourceFilter doc then
          lexLoop docs sourceFilter topK rest count
        else
          if topK ≤ count + 1 then [(idx, mkLexResult doc score)]
          else (idx, mkLexResult doc score) ::
            lexLoop docs sourceFilter topK rest (count + 1)

/-- Models `LexicalSearcher.search` (lexical.py lines 72-125), keeping the
document index of each result: empty result on a missing index or an empty
token list; otherwise score all documents, build `scored_indices =
[(score, idx) ...]`, stable-sort descending by score, and collect. -/

def LexicalSearcher.searchIdx (s : LexicalSearcher) (query : String)
    (topK : ℕ) (sourceFilter : Option String) :
    List (ℕ × LexicalSearchResult) :=
  match s.index with
  | none => []
  | some getScores =>
    let queryTokens := tokenize query
    if queryTokens.isEmpty then []
    else
      lexLoop s.documents sourceFilter topK
        (sortDesc (fun p => p.1)
          ((pyEnum 0 (getScores queryTokens)).map (fun p => (p.2, p.1)))) 0

def LexicalSearcher.search (s : LexicalSearcher) (query : String) (topK : ℕ)
    (sourceFilter : Option String) : List LexicalSearchResult :=
  (s.searchIdx query topK sourceFilter).map (·.2)

/-! ## Lexical fixtures -/

def exDocA : Doc :=
  { id := "faq_0", text := "What is a mutual fund?", metadata := [],
    source := some "faq" }

def exDocB : Doc :=
  { id := "fund_0", text := "Alpha Growth Fund", metadata := [],
    source := some "fund" }

/-- Fixture searcher whose BM25 oracle scores document 0 with 3 and document
1 with 0 for every query. -/

def exLexSearcher : LexicalSearcher :=
  { index := some (fun _ => [3, 0]), documents := [exDocA, exDocB] }

/-! ## Reranker (`app/core/retrieval/reranker.py`)

`Reranker.rerank` wraps both the Cohere API call and the loop that builds
the reranked list in one `try`; any exception — unreachable service, missing
API key, an out-of-range index in the response — falls back to the first
`top_k` inputs unchanged.  The external call's outcome is a parameter:
`Except.error` models any raised exception, `Except.ok items` the parsed
`response.results`. -/

structure RerankItem where
  index : ℕ
  relevance_score : ℚ
  deriving DecidableEq, Repr

structure RerankedResult where
  id : String
  text : String
  original_score : ℚ
  rerank_score : ℚ
  original_rank : ℕ
  new_rank : ℕ
  metadata : List (String × String)
  source : String
  deriving DecidableEq, Repr

def defaultHybrid : HybridSearchResult :=
  { id := "", text := "", score := 0, lexical_score := none,
    semantic_score := none, lexical_rank := none, semantic_rank := none,
    metadata := [], source := "unknown" }

/-- Models the `except` fallback of `Reranker.rerank` (reranker.py lines
115-130): the first `top_k` inputs in order, `rerank_score` set to the
original score, both ranks the 1-based input position. -/

def rerankFallback (results : List HybridSearchResult) (topK : ℕ) :
    List RerankedResult :=
  (pyEnum 0 (results.take topK)).map (fun p =>
    { id := p.2.id, text := p.2.text, original_score := p.2.score,
      rerank_score := p.2.score, original_rank := p.1 + 1,
      new_rank := p.1 + 1, metadata := p.2.metadata, source := p.2.source })

/-- Models `Reranker.rerank` (reranker.py lines 64-130).  Empty input short
circuits to `[]`.  A service failure (or an out-of-range `item.index`, which
in Python raises inside the same `try`) produces the fallback; a well-formed
response is mapped through `results[item.index]` with `new_rank` from
`enumerate(response.results, 1)`.  The `getD` default is unreachable under
the in-range guard. -/

def rerank (query : String) (results : List HybridSearchResult) (topK : ℕ)
    (response : Except String (List RerankItem)) : List RerankedResult :=
  if results.isEmpty then []
  else
    match response with
    | .error _ => rerankFallback results topK
    | .ok items =>
      if items.all (fun it => decide (it.index < results.length)) then
        (pyEnum 1 items).map (fun p =>
          let r := (results.get? p.2.index).getD defaultHybrid
          { id := r.id, text := r.text, original_score := r.score,
            rerank_score := p.2.relevance_score,
            original_rank := p.2.index + 1, new_rank := p.1,
            metadata := r.metadata, source := r.source })
      else rerankFallback results topK

def exH1 : HybridSearchResult :=
  { id := "dA", text := "alpha text", score := 2, lexical_score := some 2,
    semantic_score := none, lexical_rank := some 1, semantic_rank := none,
    metadata := [], source := "faq" }

/-! ## Semantic index (`app/core/retrieval/semantic.py`)

`SemanticSearcher` delegates storage to ChromaDB; we model the searcher's
observable state: whether the lazy client is initialized, the local
`self._documents` dict, and the rows added to the external collection. -/

structure SemanticState where
  clientReady : Bool
  localDocs : List (String × Doc)
  collection : List (String × List ℚ)
  deriving Repr

/-- Python dict assignment `m[k] = v`: overwrite in place if present, else
append. -/

def dictInsert {β : Type} (m : List (String × β)) (k : String) (v : β) :
    List (String × β) :=
  if (m.find? (fun p => decide (p.1 = k))).isSome
  then m.map (fun p => if p.1 = k then (k, v) else p)
  else m ++ [(k, v)]

/-- Models `SemanticSearcher.index_documents` (semantic.py lines 85-129):
the `len(documents) != len(embeddings)` check is the first statement — it
raises (`Except.error`) before `_initialize()` and before any mutation of
`self._documents` or the collection, so a mismatch leaves the index state
unchanged; with equal counts the documents are stored locally and the
`(id, embedding)` rows are added to the collection. -/

def indexDocuments (s : SemanticState) (documents : List Doc)
    (embeddings : List (List ℚ)) : Except String SemanticState :=
  if documents.length ≠ embeddings.length then
    Except.error "Documents and embeddings count mismatch"
  else
    let s1 : SemanticState := { s with clientReady := true }
    let s2 : SemanticState := { s1 with
      localDocs := documents.foldl (fun m doc => dictInsert m doc.id doc)
        s1.localDocs }
    Except.ok { s2 with
      collection := s2.collection ++
        (documents.zip embeddings).map (fun p => (p.1.id, p.2)) }

def exSemState : SemanticState :=
  { clientReady := false, localDocs := [], collection := [] }

/-! ## Index state manager (`app/core/orchestration/pipeline.py`)

The rebuild decision of `RAGPipeline.initialize` (lines 173-216), as a
function of: whether the state file exists, the outcome of reading and
parsing it (`unreadable` models the raised-exception branch, `readOk h`
carries `saved_state.get("hash")`, which is `none` when the key is absent),
the current fingerprint, and the outcome of the vector-store document-count
check (`none` models the raised-exception branch).  `true` means the full
semantic re-index runs; the Warm-matched early return is `false`. -/

inductive StateRead where
  | unreadable
  | readOk (hash : Option String)
  deriving DecidableEq, Repr

def shouldReindex (clearExisting : Bool) (stateFileExists : Bool)
    (stateRead : StateRead) (currentHash : String)
    (storeCount : Option ℕ) : Bool :=
  if !clearExisting && stateFileExists then
    match stateRead with
    | .unreadable => true
    | .readOk saved =>
      if saved = some currentHash then
        match storeCount with
        | none => true
        | some n => if 0 < n then false else true
      else true
  else true

/-- Spec-side characterisation of the Warm-matched state: state file
present, readable, fingerprint equal to the current one, and a successful
nonzero document count from the vector index. -/

def WarmMatched (stateFileExists : Bool) (stateRead : StateRead)
    (currentHash : String) (storeCount : Option ℕ) : Prop :=
  stateFileExists = true ∧ stateRead = StateRead.readOk (some currentHash) ∧
    ∃ n, storeCount = some n ∧ 0 < n

theorem insertDesc_perm {α : Type} (key : α → ℚ) (x : α) (l : List α) :
    List.Perm (insertDesc key x l) (x :: l) := by
  induction l with
  | nil => rfl
  | cons y ys ih =>
    unfold insertDesc
    split
    · exact ((ih.cons y).trans (List.Perm.swap x y ys))
    · rfl

theorem sortDesc_perm {α : Type} (key : α → ℚ) (l : List α) :
    List.Perm (sortDesc key l) l := by
  induction l with
  | nil => rfl
  | cons x xs ih => exact (insertDesc_perm key x (sortDesc key xs)).trans (ih.cons x)

theorem insertDesc_pairwise {α : Type} (key : α → ℚ) {S : α → α → Prop} (x : α)
    {l : List α}
    (hl : l.Pairwise (fun a b => key b < key a ∨ (key a = key b ∧ S a b)))
    (hx : ∀ y ∈ l, S x y) :
    (insertDesc key x l).Pairwise
      (fun a b => key b < key a ∨ (key a = key b ∧ S a b)) := by
  induction l with
  | nil => simp [insertDesc]
  | cons y ys ih =>
    rw [List.pairwise_cons] at hl
    unfold insertDesc
    split
    · rename_i hlt
      refine List.pairwise_cons.2 ⟨?_, ih hl.2 (fun z hz => hx z (List.mem_cons_of_mem y hz))⟩
      intro z hz
      have hz' : z ∈ x :: ys := (insertDesc_perm key x ys).mem_iff.1 hz
      rcases List.mem_cons.1 hz' with h | h
      · subst h; exact Or.inl hlt
      · exact hl.1 z h
    · rename_i hge
      push_neg at hge
      refine List.pairwise_cons.2 ⟨?_, List.pairwise_cons.2 ⟨hl.1, hl.2⟩⟩
      intro z hz
      rcases List.mem_cons.1 hz with h | h
      · rw [h]
        rcases lt_or_eq_of_le hge with h' | h'
        · exact Or.inl h'
        · exact Or.inr ⟨h'.symm, hx y (List.mem_cons_self y ys)⟩
      · have hyz := hl.1 z h
        have hzy : key z ≤ key y := by
          rcases hyz with h' | h'
          · exact le_of_lt h'
          · exact le_of_eq h'.1.symm
        rcases lt_or_eq_of_le (le_trans hzy hge) with h' | h'
        · exact Or.inl h'
        · exact Or.inr ⟨h'.symm, hx z (List.mem_cons_of_mem y h)⟩

theorem sortDesc_pairwise {α : Type} (key : α → ℚ) {S : α → α → Prop}
    {l : List α} (hl : l.Pairwise S) :
    (sortDesc key l).Pairwise
      (fun a b => key b < key a ∨ (key a = key b ∧ S a b)) := by
  induction l with
  | nil => simp [sortDesc]
  | cons x xs ih =>
    rw [List.pairwise_cons] at hl
    exact insertDesc_pairwise key x (ih hl.2)
      (fun y hy => hl.1 y ((sortDesc_perm key xs).mem_iff.1 hy))

theorem pairwise_trivial {α : Type} (l : List α) :
    l.Pairwise (fun _ _ => True) := by
  induction l with
  | nil => exact List.Pairwise.nil
  | cons x xs ih => exact List.pairwise_cons.2 ⟨fun _ _ => trivial, ih⟩

theorem sortDesc_sorted {α : Type} (key : α → ℚ) (l : List α) :
    (sortDesc key l).Pairwise (fun a b => key b ≤ key a) := by
  have h := sortDesc_pairwise key (pairwise_trivial l)
  exact h.imp (fun hab => by
    rcases hab with h' | h'
    · exact le_of_lt h'
    · exact le_of_eq h'.1.symm)

theorem pyEnum_fst_le {α : Type} {i : ℕ} {l : List α} {p : ℕ × α}
    (h : p ∈ pyEnum i l) : i ≤ p.1 := by
  induction l generalizing i with
  | nil => simp [pyEnum] at h
  | cons x xs ih =>
    rcases List.mem_cons.1 h with h' | h'
    · subst h'; exact le_refl _
    · exact le_trans (Nat.le_succ i) (ih h')

theorem pyEnum_pairwise {α : Type} (i : ℕ) (l : List α) :
    (pyEnum i l).Pairwise (fun a b => a.1 < b.1) := by
  induction l generalizing i with
  | nil => exact List.Pairwise.nil
  | cons x xs ih =>
    refine List.pairwise_cons.2 ⟨?_, ih (i + 1)⟩
    intro p hp
    exact lt_of_lt_of_le (Nat.lt_succ_self i) (pyEnum_fst_le hp)

theorem pyEnum_map_snd {α : Type} (i : ℕ) (l : List α) :
    (pyEnum i l).map (·.2) = l := by
  induction l generalizing i with
  | nil => rfl
  | cons x xs ih => simp [pyEnum, ih]

theorem mem_pyEnum {α : Type} {i : ℕ} {l : List α} {p : ℕ × α}
    (h : p ∈ pyEnum i l) : p.2 ∈ l := by
  induction l generalizing i with
  | nil => simp [pyEnum] at h
  | cons x xs ih =>
    rcases List.mem_cons.1 h with h' | h'
    · subst h'; exact List.mem_cons_self x xs
    · exact List.mem_cons_of_mem x (ih h')

theorem mem_dedupKeepFirst {d : String} : ∀ {l : List String},
    d ∈ dedupKeepFirst l ↔ d ∈ l
  | [] => Iff.rfl
  | x :: xs => by
    show d ∈ x :: (dedupKeepFirst xs).filter (fun y => decide (y ≠ x)) ↔ _
    by_cases hdx : d = x
    · subst hdx; simp
    · simp only [List.mem_cons, hdx, false_or, List.mem_filter,
        decide_eq_true_eq, and_iff_left hdx]
      exact mem_dedupKeepFirst

theorem nodup_dedupKeepFirst : ∀ (l : List String), (dedupKeepFirst l).Nodup
  | [] => List.nodup_nil
  | x :: xs => by
    show (x :: (dedupKeepFirst xs).filter (fun y => decide (y ≠ x))).Nodup
    refine List.nodup_cons.2 ⟨?_, List.Nodup.filter _ (nodup_dedupKeepFirst xs)⟩
    intro hx
    have := List.mem_filter.1 hx
    simp at this

theorem dedupKeepFirst_eq_self : ∀ {l : List String}, l.Nodup → dedupKeepFirst l = l
  | [], _ => rfl
  | x :: xs, h => by
    rw [List.nodup_cons] at h
    show x :: (dedupKeepFirst xs).filter (fun y => decide (y ≠ x)) = x :: xs
    rw [dedupKeepFirst_eq_self h.2]
    congr 1
    apply List.filter_eq_self.2
    intro a ha
    simp only [decide_eq_true_eq]
    intro hax
    exact h.1 (hax ▸ ha)

theorem dedupKeepFirst_append {as : List String} (bs : List String) (ha : as.Nodup) :
    dedupKeepFirst (as ++ bs) =
      as ++ (dedupKeepFirst bs).filter (fun y => decide (y ∉ as)) := by
  induction as with
  | nil =>
    simp only [List.nil_append]
    rw [List.filter_eq_self.2]
    intro a _
    simp
  | cons x xs ih =>
    rw [List.nodup_cons] at ha
    show x :: (dedupKeepFirst (xs ++ bs)).filter (fun y => decide (y ≠ x)) = _
    rw [ih ha.2, List.filter_append, List.filter_filter, List.cons_append]
    congr 2
    · apply List.filter_eq_self.2
      intro a hax
      simp only [decide_eq_true_eq]
      intro h
      exact ha.1 (h ▸ hax)
    · apply List.filter_congr
      intro a _
      rw [← Bool.decide_and, decide_eq_decide, List.mem_cons]
      tauto

theorem indexOf_get_of_nodup : ∀ (l : List String), l.Nodup → ∀ (i : Fin l.length),
    l.indexOf (l.get i) = i
  | [], _, i => absurd i.2 (by simp)
  | x :: xs, _, ⟨0, _⟩ => List.indexOf_cons_self x xs
  | x :: xs, h, ⟨j + 1, hj⟩ => by
    rw [List.nodup_cons] at h
    have hget : (x :: xs).get ⟨j + 1, hj⟩ = xs.get ⟨j, Nat.lt_of_succ_lt_succ hj⟩ := rfl
    have hne : x ≠ xs.get ⟨j, Nat.lt_of_succ_lt_succ hj⟩ := by
      intro heq
      have hmem := xs.get_mem j (Nat.lt_of_succ_lt_succ hj)
      rw [← heq] at hmem
      exact h.1 hmem
    rw [hget, List.indexOf_cons_ne _ hne, indexOf_get_of_nodup xs h.2]

theorem pairwise_indexOf_of_nodup (l : List String) (h : l.Nodup) :
    l.Pairwise (fun a b => l.indexOf a < l.indexOf b) := by
  rw [List.pairwise_iff_get]
  intro i j hij
  rw [indexOf_get_of_nodup l h i, indexOf_get_of_nodup l h j]
  exact hij

theorem take_append_take {α : Type} (as bs : List α) (n : ℕ) :
    ((as ++ bs).take n).take as.length = as.take n := by
  rw [List.take_append_eq_append_take]
  by_cases h : n ≤ as.length
  · have h0 : n - as.length = 0 := Nat.sub_eq_zero_of_le h
    rw [h0, List.take_zero, List.append_nil, List.take_take, Nat.min_comm,
      Nat.min_eq_left h]
  · push_neg at h
    have h1 : as.take n = as := List.take_of_length_le (le_of_lt h)
    rw [h1, List.take_left]

theorem take_append_drop_len {α : Type} (as bs : List α) (n : ℕ) :
    ((as ++ bs).take n).drop as.length = bs.take (n - as.length) := by
  rw [List.take_append_eq_append_take]
  by_cases h : n ≤ as.length
  · have h0 : n - as.length = 0 := Nat.sub_eq_zero_of_le h
    rw [h0, List.take_zero, List.append_nil, List.drop_eq_nil_of_le]
    rw [List.length_take]
    exact le_trans (Nat.min_le_left _ _) h
  · push_neg at h
    have h1 : as.take n = as := List.take_of_length_le (le_of_lt h)
    rw [h1, List.drop_left]

theorem fuseOne_id (lex sem : List SearchResult) (alpha rrfK : ℚ) (d : String) :
    (fuseOne lex sem alpha rrfK d).id = d := by
  unfold fuseOne
  rcases rankMap lex d with _ | ⟨rl, r⟩ <;> rcases rankMap sem d with _ | ⟨rs, s⟩ <;> rfl

theorem rankMapAux_eq_none {d : String} : ∀ {rs : List SearchResult} (i : ℕ),
    rankMapAux d i rs = none ↔ d ∉ rs.map (·.id)
  | [], i => by simp [rankMapAux]
  | r :: rs, i => by
    unfold rankMapAux
    rcases h : rankMapAux d (i + 1) rs with _ | p
    · have hd : d ∉ rs.map (·.id) := (rankMapAux_eq_none (i + 1)).1 h
      by_cases hid : r.id = d
      · simp [hid, hd]
      · simp only [hid, if_false, true_iff, List.map_cons, List.mem_cons, hd]
        tauto
    · have hd : d ∈ rs.map (·.id) := by
        by_contra hnot
        rw [← rankMapAux_eq_none (i + 1)] at hnot
        rw [h] at hnot
        exact Option.noConfusion hnot
      simp only [List.map_cons, List.mem_cons]
      constructor
      · intro habs; exact Option.noConfusion habs
      · intro habs; exact absurd (Or.inr hd) habs

theorem rankMapAux_nodup {d : String} : ∀ {rs : List SearchResult} (i : ℕ),
    (rs.map (·.id)).Nodup → d ∈ rs.map (·.id) →
    ∃ r ∈ rs, r.id = d ∧
      rankMapAux d i rs = some (i + (rs.map (·.id)).indexOf d + 1, r)
  | [], i => by simp
  | r :: rs, i => by
    intro hnd hd
    rw [List.map_cons, List.nodup_cons] at hnd
    unfold rankMapAux
    by_cases hid : r.id = d
    · have hnotin : d ∉ rs.map (·.id) := hid ▸ hnd.1
      have hnone : rankMapAux d (i + 1) rs = none := (rankMapAux_eq_none (i + 1)).2 hnotin
      refine ⟨r, List.mem_cons_self r rs, hid, ?_⟩
      rw [hnone, List.map_cons, List.indexOf_cons_eq _ hid]
      simp [hid]
    · have hd' : d ∈ rs.map (·.id) := by
        rcases List.mem_cons.1 (List.map_cons _ r rs ▸ hd) with h | h
        · exact absurd h.symm hid
        · exact h
      obtain ⟨r', hr', hid', heq⟩ := rankMapAux_nodup (i + 1) hnd.2 hd'
      refine ⟨r', List.mem_cons_of_mem r hr', hid', ?_⟩
      rw [heq, List.map_cons, List.indexOf_cons_ne _ (fun h => hid h)]
      have harith : i + 1 + (rs.map (·.id)).indexOf d + 1
          = i + Nat.succ ((rs.map (·.id)).indexOf d) + 1 := by omega
      rw [harith]

theorem rankMap_eq_none {rs : List SearchResult} {d : String}
    (h : d ∉ rs.map (·.id)) : rankMap rs d = none :=
  (rankMapAux_eq_none 0).2 h

theorem rankMap_nodup {rs : List SearchResult} {d : String}
    (hnd : (rs.map (·.id)).Nodup) (hd : d ∈ rs.map (·.id)) :
    ∃ r ∈ rs, r.id = d ∧ rankMap rs d = some ((rs.map (·.id)).indexOf d + 1, r) := by
  obtain ⟨r, hr, hid, heq⟩ := rankMapAux_nodup 0 hnd hd
  exact ⟨r, hr, hid, by rw [rankMap, heq, Nat.zero_add]⟩

/-- Central score computation lemma: under unique ids in each origin list, the
fused score of any id is the RRF formula with 1-based first-occurrence
ranks, a missing rank contributing zero to its term. -/

theorem fuseOne_score (lex sem : List SearchResult) (alpha rrfK : ℚ) (d : String)
    (hL : (lex.map (·.id)).Nodup) (hS : (sem.map (·.id)).Nodup) :
    (fuseOne lex sem alpha rrfK d).score =
      (if d ∈ lex.map (·.id) then
        (1 - alpha) * (1 / (rrfK + ((lex.map (·.id)).indexOf d + 1 : ℕ))) else 0)
      + (if d ∈ sem.map (·.id) then
        alpha * (1 / (rrfK + ((sem.map (·.id)).indexOf d + 1 : ℕ))) else 0) := by
  by_cases hdl : d ∈ lex.map (·.id) <;> by_cases hds : d ∈ sem.map (·.id)
  · obtain ⟨r, _, _, hrl⟩ := rankMap_nodup hL hdl
    obtain ⟨s, _, _, hrs⟩ := rankMap_nodup hS hds
    rw [fuseOne, hrl, hrs]
    simp [hdl, hds]
  · obtain ⟨r, _, _, hrl⟩ := rankMap_nodup hL hdl
    rw [fuseOne, hrl, rankMap_eq_none hds]
    simp [hdl, hds]
  · obtain ⟨s, _, _, hrs⟩ := rankMap_nodup hS hds
    rw [fuseOne, rankMap_eq_none hdl, hrs]
    simp [hdl, hds]
  · rw [fuseOne, rankMap_eq_none hdl, rankMap_eq_none hds]
    simp [hdl, hds]

/-- Uniqueness of the stable-sort output: if the candidate list is ordered by
a strictly increasing position function, and a target list (a permutation of
the candidates) consists of a strictly-descending positive-key block followed
by a zero-key block in position order, then the sort returns exactly that
target list. -/

theorem sortDesc_eq_of_shape {α : Type} (key : α → ℚ) (pos : α → ℕ)
    (C P Q : List α)
    (hperm : List.Perm C (P ++ Q))
    (hCpos : C.Pairwise (fun a b => pos a < pos b))
    (hP : P.Pairwise (fun a b => key b < key a))
    (hQ0 : ∀ b ∈ Q, key b = 0)
    (hPpos : ∀ a ∈ P, 0 < key a)
    (hQpos : Q.Pairwise (fun a b => pos a < pos b)) :
    sortDesc key C = P ++ Q := by
  have hanti : IsAntisymm α
      (fun a b => key b < key a ∨ (key a = key b ∧ pos a < pos b)) := by
    constructor
    intro a b hab hba
    exfalso
    rcases hab with h1 | h1 <;> rcases hba with h2 | h2
    · exact lt_asymm h1 h2
    · exact (ne_of_gt h1) h2.1.symm
    · exact (ne_of_gt h2) h1.1.symm
    · exact lt_asymm h1.2 h2.2
  refine @List.eq_of_perm_of_sorted α
    (fun a b => key b < key a ∨ (key a = key b ∧ pos a < pos b)) hanti _ _
    ((sortDesc_perm key C).trans hperm) (sortDesc_pairwise key hCpos) ?_
  show (P ++ Q).Pairwise _
  rw [List.pairwise_append]
  refine ⟨hP.imp (fun h => Or.inl h), ?_, ?_⟩
  · exact List.Pairwise.imp_of_mem
      (fun ha hb h => Or.inr ⟨by rw [hQ0 _ ha, hQ0 _ hb], h⟩) hQpos
  · intro a ha b hb
    exact Or.inl (by rw [hQ0 b hb]; exact hPpos a ha)

theorem allIds_eq (lex sem : List SearchResult)
    (hL : (lex.map (·.id)).Nodup) (hS : (sem.map (·.id)).Nodup) :
    allIds lex sem = lex.map (·.id) ++
      (sem.map (·.id)).filter (fun y => decide (y ∉ lex.map (·.id))) := by
  rw [allIds, dedupKeepFirst_append _ hL, dedupKeepFirst_eq_self hS]

theorem fuseOne_score_alpha0_pos (lex sem : List SearchResult) (rrfK : ℚ)
    (d : String) (hL : (lex.map (·.id)).Nodup) (hS : (sem.map (·.id)).Nodup)
    (hd : d ∈ lex.map (·.id)) :
    (fuseOne lex sem 0 rrfK d).score
      = 1 / (rrfK + ((lex.map (·.id)).indexOf d + 1 : ℕ)) := by
  rw [fuseOne_score lex sem 0 rrfK d hL hS]
  by_cases hds : d ∈ sem.map (·.id) <;> simp [hd, hds]

theorem fuseOne_score_alpha0_zero (lex sem : List SearchResult) (rrfK : ℚ)
    (d : String) (hL : (lex.map (·.id)).Nodup) (hS : (sem.map (·.id)).Nodup)
    (hd : d ∉ lex.map (·.id)) :
    (fuseOne lex sem 0 rrfK d).score = 0 := by
  rw [fuseOne_score lex sem 0 rrfK d hL hS]
  by_cases hds : d ∈ sem.map (·.id) <;> simp [hd, hds]

theorem fuseOne_score_alpha1_pos (lex sem : List SearchResult) (rrfK : ℚ)
    (d : String) (hL : (lex.map (·.id)).Nodup) (hS : (sem.map (·.id)).Nodup)
    (hd : d ∈ sem.map (·.id)) :
    (fuseOne lex sem 1 rrfK d).score
      = 1 / (rrfK + ((sem.map (·.id)).indexOf d + 1 : ℕ)) := by
  rw [fuseOne_score lex sem 1 rrfK d hL hS]
  by_cases hdl : d ∈ lex.map (·.id) <;> simp [hd, hdl]

theorem fuseOne_score_alpha1_zero (lex sem : List SearchResult) (rrfK : ℚ)
    (d : String) (hL : (lex.map (·.id)).Nodup) (hS : (sem.map (·.id)).Nodup)
    (hd : d ∉ sem.map (·.id)) :
    (fuseOne lex sem 1 rrfK d).score = 0 := by
  rw [fuseOne_score lex sem 1 rrfK d hL hS]
  by_cases hdl : d ∈ lex.map (·.id) <;> simp [hd, hdl]

theorem rrf_term_pos {k : ℚ} (hk : 0 ≤ k) (n : ℕ) :
    0 < 1 / (k + ((n + 1 : ℕ) : ℚ)) := by
  apply one_div_pos.2
  have h1 : (0 : ℚ) < ((n + 1 : ℕ) : ℚ) := by exact_mod_cast Nat.succ_pos n
  linarith

theorem rrf_term_lt {k : ℚ} (hk : 0 ≤ k) {m n : ℕ} (h : m < n) :
    1 / (k + ((n + 1 : ℕ) : ℚ)) < 1 / (k + ((m + 1 : ℕ) : ℚ)) := by
  apply one_div_lt_one_div_of_lt
  · have h1 : (0 : ℚ) < ((m + 1 : ℕ) : ℚ) := by exact_mod_cast Nat.succ_pos m
    linarith
  · have h2 : ((m + 1 : ℕ) : ℚ) < ((n + 1 : ℕ) : ℚ) := by
      exact_mod_cast Nat.succ_lt_succ h
    linarith

/-- Closed form of `HybridSearcher.search` at `alpha = 0`: the lexical ids in
lexical-rank order, followed by the semantic-only ids (all fused to score 0),
truncated to `top_k`. -/

theorem hybrid_alpha0_eq (lex sem : List SearchResult) (topK : ℕ) (rrfK : ℚ)
    (hL : (lex.map (·.id)).Nodup) (hS : (sem.map (·.id)).Nodup) (hk : 0 ≤ rrfK) :
    hybridSearch lex sem topK 0 rrfK =
      ((lex.map (·.id)).map (fuseOne lex sem 0 rrfK) ++
       ((sem.map (·.id)).filter (fun y => decide (y ∉ lex.map (·.id)))).map
         (fuseOne lex sem 0 rrfK)).take topK := by
  rw [hybridSearch]
  congr 1
  apply sortDesc_eq_of_shape (fun r : HybridSearchResult => r.score)
    (fun r : HybridSearchResult => (allIds lex sem).indexOf r.id)
  · rw [fuseCandidates, allIds_eq lex sem hL hS, List.map_append]
  · rw [fuseCandidates]
    apply List.pairwise_map.2
    apply List.Pairwise.imp_of_mem ?_
      (pairwise_indexOf_of_nodup (allIds lex sem) (nodup_dedupKeepFirst _))
    intro a b _ _ h
    rw [fuseOne_id, fuseOne_id]
    exact h
  · apply List.pairwise_map.2
    apply List.Pairwise.imp_of_mem ?_ (pairwise_indexOf_of_nodup (lex.map (·.id)) hL)
    intro a b ha hb hlt
    rw [fuseOne_score_alpha0_pos lex sem rrfK b hL hS hb,
      fuseOne_score_alpha0_pos lex sem rrfK a hL hS ha]
    exact rrf_term_lt hk hlt
  · intro b hb
    obtain ⟨d, hd, rfl⟩ := List.mem_map.1 hb
    have hd2 := (List.mem_filter.1 hd).2
    simp only [decide_eq_true_eq] at hd2
    exact fuseOne_score_alpha0_zero lex sem rrfK d hL hS hd2
  · intro a ha
    obtain ⟨d, hd, rfl⟩ := List.mem_map.1 ha
    rw [fuseOne_score_alpha0_pos lex sem rrfK d hL hS hd]
    exact rrf_term_pos hk _
  · apply List.pairwise_map.2
    apply List.Pairwise.imp_of_mem ?_
      (pairwise_indexOf_of_nodup _ (hS.filter (fun y => decide (y ∉ lex.map (·.id)))))
    intro a b ha hb hlt
    have ha2 := (List.mem_filter.1 ha).2
    have hb2 := (List.mem_filter.1 hb).2
    simp only [decide_eq_true_eq] at ha2 hb2
    rw [fuseOne_id, fuseOne_id, allIds_eq lex sem hL hS,
      List.indexOf_append_of_not_mem ha2, List.indexOf_append_of_not_mem hb2]
    exact Nat.add_lt_add_left hlt _

/-- Closed form of `HybridSearcher.search` at `alpha = 1`: the semantic ids in
vector-rank order, followed by the lexical-only ids (all fused to score 0),
truncated to `top_k`. -/

theorem hybrid_alpha1_eq (lex sem : List SearchResult) (topK : ℕ) (rrfK : ℚ)
    (hL : (lex.map (·.id)).Nodup) (hS : (sem.map (·.id)).Nodup) (hk : 0 ≤ rrfK) :
    hybridSearch lex sem topK 1 rrfK =
      ((sem.map (·.id)).map (fuseOne lex sem 1 rrfK) ++
       ((lex.map (·.id)).filter (fun y => decide (y ∉ sem.map (·.id)))).map
         (fuseOne lex sem 1 rrfK)).take topK := by
  have hnodup1 : (lex.map (·.id) ++
      (sem.map (·.id)).filter (fun y => decide (y ∉ lex.map (·.id)))).Nodup := by
    rw [← allIds_eq lex sem hL hS]
    exact nodup_dedupKeepFirst _
  have hnodup2 : (sem.map (·.id) ++
      (lex.map (·.id)).filter (fun y => decide (y ∉ sem.map (·.id)))).Nodup := by
    rw [List.nodup_append]
    refine ⟨hS, hL.filter _, ?_⟩
    intro a ha hafil
    have := (List.mem_filter.1 hafil).2
    simp only [decide_eq_true_eq] at this
    exact this ha
  rw [hybridSearch]
  congr 1
  apply sortDesc_eq_of_shape (fun r : HybridSearchResult => r.score)
    (fun r : HybridSearchResult => (allIds lex sem).indexOf r.id)
  · rw [fuseCandidates, allIds_eq lex sem hL hS, ← List.map_append]
    apply List.Perm.map
    apply (List.perm_ext_iff_of_nodup hnodup1 hnodup2).2
    intro a
    simp only [List.mem_append, List.mem_filter, decide_eq_true_eq]
    tauto
  · rw [fuseCandidates]
    apply List.pairwise_map.2
    apply List.Pairwise.imp_of_mem ?_
      (pairwise_indexOf_of_nodup (allIds lex sem) (nodup_dedupKeepFirst _))
    intro a b _ _ h
    rw [fuseOne_id, fuseOne_id]
    exact h
  · apply List.pairwise_map.2
    apply List.Pairwise.imp_of_mem ?_ (pairwise_indexOf_of_nodup (sem.map (·.id)) hS)
    intro a b ha hb hlt
    rw [fuseOne_score_alpha1_pos lex sem rrfK b hL hS hb,
      fuseOne_score_alpha1_pos lex sem rrfK a hL hS ha]
    exact rrf_term_lt hk hlt
  · intro b hb
    obtain ⟨d, hd, rfl⟩ := List.mem_map.1 hb
    have hd2 := (List.mem_filter.1 hd).2
    simp only [decide_eq_true_eq] at hd2
    exact fuseOne_score_alpha1_zero lex sem rrfK d hL hS hd2
  · intro a ha
    obtain ⟨d, hd, rfl⟩ := List.mem_map.1 ha
    rw [fuseOne_score_alpha1_pos lex sem rrfK d hL hS hd]
    exact rrf_term_pos hk _
  · apply List.pairwise_map.2
    apply List.Pairwise.imp_of_mem ?_
      (List.Pairwise.sublist (List.filter_sublist _)
        (pairwise_indexOf_of_nodup (lex.map (·.id)) hL))
    intro a b ha hb hlt
    have ha1 : a ∈ lex.map (·.id) := List.mem_of_mem_filter ha
    have hb1 : b ∈ lex.map (·.id) := List.mem_of_mem_filter hb
    rw [fuseOne_id, fuseOne_id, allIds_eq lex sem hL hS,
      List.indexOf_append_of_mem ha1, List.indexOf_append_of_mem hb1]
    exact hlt

/-! ## Claim C1: RRF fused score formula -/

/-- C1: for every document id appearing in either origin list of
`HybridSearcher.search`, its fused candidate (the entry of `scored_results`
keyed by that id) has
`fused_score = (1-alpha) * 1/(k_rrf + lexical_rank) + alpha * 1/(k_rrf + vector_rank)`,
where the ranks are the 1-based positions of the id in the origin lists and a
rank missing from one origin contributes zero to its term.  Unique ids per
origin list (the searchers return each document at most once) make the
1-based position well defined. -/

theorem rrf_fused_score_formula (lex sem : List SearchResult) (alpha rrfK : ℚ)
    (d : String) (hL : (lex.map (·.id)).Nodup) (hS : (sem.map (·.id)).Nodup)
    (hd : d ∈ lex.map (·.id) ∨ d ∈ sem.map (·.id)) :
    fuseOne lex sem alpha rrfK d ∈ fuseCandidates lex sem alpha rrfK ∧
    (fuseOne lex sem alpha rrfK d).score =
      (if d ∈ lex.map (·.id) then
        (1 - alpha) * (1 / (rrfK + ((lex.map (·.id)).indexOf d + 1 : ℕ))) else 0)
      + (if d ∈ sem.map (·.id) then
        alpha * (1 / (rrfK + ((sem.map (·.id)).indexOf d + 1 : ℕ))) else 0) := by
  refine ⟨?_, fuseOne_score lex sem alpha rrfK d hL hS⟩
  apply List.mem_map_of_mem
  rw [allIds, mem_dedupKeepFirst, List.mem_append]
  exact hd

/-- Witness for C1 at a concrete input: id `dY` sits at lexical rank 2 and
vector rank 1. -/

theorem rrf_fused_score_formula_witness :
    fuseOne [exL2, exL3] [exS2] (1/2) 60 "dY" ∈ fuseCandidates [exL2, exL3] [exS2] (1/2) 60 ∧
    (fuseOne [exL2, exL3] [exS2] (1/2) 60 "dY").score =
      (if "dY" ∈ [exL2, exL3].map (·.id) then
        (1 - (1/2 : ℚ)) *
          (1 / ((60 : ℚ) + ((([exL2, exL3].map (·.id)).indexOf "dY" + 1 : ℕ) : ℚ))) else 0)
      + (if "dY" ∈ [exS2].map (·.id) then
        (1/2 : ℚ) *
          (1 / ((60 : ℚ) + ((([exS2].map (·.id)).indexOf "dY" + 1 : ℕ) : ℚ))) else 0) :=
  rrf_fused_score_formula [exL2, exL3] [exS2] (1/2) 60 "dY"
    (by decide) (by decide) (by decide)

/-! ## Claim C2: hybrid search at the alpha extremes -/

/-- C2 counterexample: with `alpha = 0`, one lexical result `dA` and one
semantic result `dB` and `top_k = 2`, the hybrid output is `[dA, dB]`
(the semantic-only id enters with fused score 0) whereas pure lexical search
truncated to `top_k` returns just `[dA]` — the lists are not identical. -/

theorem hybrid_alpha_zero_cex :
    (hybridSearch [exL1] [exS1] 2 0 60).map (·.id) ≠ ([exL1].map (·.id)).take 2 := by
  norm_num [hybridSearch, fuseCandidates, allIds, dedupKeepFirst, fuseOne, rankMap,
    rankMapAux, sortDesc, insertDesc, exL1, exS1,
    (show ¬ (("dB" : String) = "dA") from by decide),
    (show ¬ (("dA" : String) = "dB") from by decide)]

/-- C2 amended: with `alpha = 0` the hybrid output *begins with* exactly the
pure lexical result order truncated to `top_k` (its first
`min(top_k, |lexical list|)` entries); any entries after that prefix are
semantic-only ids carrying fused score 0 (they appear only when the lexical
list is shorter than `top_k`).  Symmetrically for `alpha = 1` and pure vector
search. -/

theorem hybrid_alpha_extremes_amended (lex sem : List SearchResult) (topK : ℕ)
    (rrfK : ℚ) (hL : (lex.map (·.id)).Nodup) (hS : (sem.map (·.id)).Nodup)
    (hk : 0 ≤ rrfK) :
    (((hybridSearch lex sem topK 0 rrfK).map (·.id)).take lex.length
        = (lex.map (·.id)).take topK) ∧
    (∀ r ∈ (hybridSearch lex sem topK 0 rrfK).drop lex.length,
        r.score = 0 ∧ r.id ∈ sem.map (·.id) ∧ r.id ∉ lex.map (·.id)) ∧
    (((hybridSearch lex sem topK 1 rrfK).map (·.id)).take sem.length
        = (sem.map (·.id)).take topK) ∧
    (∀ r ∈ (hybridSearch lex sem topK 1 rrfK).drop sem.length,
        r.score = 0 ∧ r.id ∈ lex.map (·.id) ∧ r.id ∉ sem.map (·.id)) := by
  have hmapid : ∀ (alpha : ℚ) (ids : List String),
      (ids.map (fuseOne lex sem alpha rrfK)).map (fun r : HybridSearchResult => r.id)
        = ids := by
    intro alpha ids
    rw [List.map_map]
    exact List.map_id'' (fun d => fuseOne_id lex sem alpha rrfK d) _
  refine ⟨?_, ?_, ?_, ?_⟩
  · rw [hybrid_alpha0_eq lex sem topK rrfK hL hS hk, List.map_take, List.map_append,
      hmapid, hmapid,
      show lex.length = (lex.map (·.id)).length from (List.length_map lex _).symm]
    exact take_append_take _ _ _
  · intro r hr
    rw [hybrid_alpha0_eq lex sem topK rrfK hL hS hk,
      show lex.length = ((lex.map (·.id)).map (fuseOne lex sem 0 rrfK)).length from by
        rw [List.length_map, List.length_map],
      take_append_drop_len] at hr
    have hrQ := List.take_subset _ _ hr
    obtain ⟨d, hd, rfl⟩ := List.mem_map.1 hrQ
    have hd1 := (List.mem_filter.1 hd).1
    have hd2 := (List.mem_filter.1 hd).2
    simp only [decide_eq_true_eq] at hd2
    exact ⟨fuseOne_score_alpha0_zero lex sem rrfK d hL hS hd2,
      by rw [fuseOne_id]; exact hd1, by rw [fuseOne_id]; exact hd2⟩
  · rw [hybrid_alpha1_eq lex sem topK rrfK hL hS hk, List.map_take, List.map_append,
      hmapid, hmapid,
      show sem.length = (sem.map (·.id)).length from (List.length_map sem _).symm]
    exact take_append_take _ _ _
  · intro r hr
    rw [hybrid_alpha1_eq lex sem topK rrfK hL hS hk,
      show sem.length = ((sem.map (·.id)).map (fuseOne lex sem 1 rrfK)).length from by
        rw [List.length_map, List.length_map],
      take_append_drop_len] at hr
    have hrQ := List.take_subset _ _ hr
    obtain ⟨d, hd, rfl⟩ := List.mem_map.1 hrQ
    have hd1 := (List.mem_filter.1 hd).1
    have hd2 := (List.mem_filter.1 hd).2
    simp only [decide_eq_true_eq] at hd2
    exact ⟨fuseOne_score_alpha1_zero lex sem rrfK d hL hS hd2,
      by rw [fuseOne_id]; exact hd1, by rw [fuseOne_id]; exact hd2⟩

/-- Witness for the amended C2 at a concrete input: the lexical prefix
equality for `alpha = 0`, the zero-scored semantic-only trailing entry, and
the vector prefix equality for `alpha = 1`. -/

theorem hybrid_alpha_extremes_amended_witness :
    (((hybridSearch [exL1] [exS1] 2 0 60).map (·.id)).take [exL1].length
        = ([exL1].map (·.id)).take 2) ∧
    ((fuseOne [exL1] [exS1] 0 60 "dB").score = 0 ∧
      (fuseOne [exL1] [exS1] 0 60 "dB").id ∈ [exS1].map (·.id) ∧
      (fuseOne [exL1] [exS1] 0 60 "dB").id ∉ [exL1].map (·.id)) ∧
    (((hybridSearch [exL1] [exS1] 2 1 60).map (·.id)).take [exS1].length
        = ([exS1].map (·.id)).take 2) := by
  have h := hybrid_alpha_extremes_amended [exL1] [exS1] 2 60
    (by decide) (by decide) (by norm_num)
  refine ⟨h.1, h.2.1 _ ?_, h.2.2.1⟩
  norm_num [hybridSearch, fuseCandidates, allIds, dedupKeepFirst, fuseOne, rankMap,
    rankMapAux, sortDesc, insertDesc, exL1, exS1,
    (show ¬ (("dB" : String) = "dA") from by decide),
    (show ¬ (("dA" : String) = "dB") from by decide)]

/-! ## Claim C3: ordering invariant of the returned list -/

/-- C3 counterexample: with one lexical-only id at rank 1 and one
semantic-only id at rank 1 and `alpha = 1/2`, both fused scores equal
`(1/2) * 1/61`, so the returned list is *not* strictly descending in
`fused_score` (the claim's conjunction fails in its strictness part). -/

theorem hybrid_strict_desc_cex :
    ¬ ((hybridSearch [exL1] [exS1] 2 (1/2) 60).length ≤ 2 ∧
       (hybridSearch [exL1] [exS1] 2 (1/2) 60).Pairwise (fun a b => b.score < a.score)) := by
  intro h
  have h2 := h.2
  revert h2
  norm_num [hybridSearch, fuseCandidates, allIds, dedupKeepFirst, fuseOne, rankMap,
    rankMapAux, sortDesc, insertDesc, exL1, exS1, List.pairwise_cons,
    (show ¬ (("dB" : String) = "dA") from by decide),
    (show ¬ (("dA" : String) = "dB") from by decide)]

/-- C3 amended: the returned list has length at most `top_k` and
`fused_score` orders it descending *non-strictly* (the stable sort allows
equal adjacent scores, as the counterexample exhibits). -/

theorem hybrid_sorted_nonstrict (lex sem : List SearchResult) (topK : ℕ)
    (alpha rrfK : ℚ) :
    (hybridSearch lex sem topK alpha rrfK).length ≤ topK ∧
    (hybridSearch lex sem topK alpha rrfK).Pairwise (fun a b => b.score ≤ a.score) := by
  constructor
  · exact List.length_take_le _ _
  · exact List.Pairwise.sublist (List.take_sublist _ _)
      (sortDesc_sorted (fun r => r.score) (fuseCandidates lex sem alpha rrfK))

/-! ## Claim C10: each document id appears at most once in the output -/

/-- C10: the list returned by `HybridSearcher.search` contains each document
id at most once (candidates are keyed by id via the set union `all_ids`), and
every returned id comes from one of the two origin lists. -/

theorem hybrid_ids_unique (lex sem : List SearchResult) (topK : ℕ)
    (alpha rrfK : ℚ) :
    ((hybridSearch lex sem topK alpha rrfK).map (·.id)).Nodup ∧
    ∀ r ∈ hybridSearch lex sem topK alpha rrfK,
      r.id ∈ lex.map (·.id) ∨ r.id ∈ sem.map (·.id) := by
  have hperm := sortDesc_perm (fun r : HybridSearchResult => r.score)
    (fuseCandidates lex sem alpha rrfK)
  have hids : (fuseCandidates lex sem alpha rrfK).map (·.id) = allIds lex sem := by
    rw [fuseCandidates, List.map_map]
    exact List.map_id'' (fun d => fuseOne_id lex sem alpha rrfK d) _
  constructor
  · have h1 : ((sortDesc (fun r => r.score) (fuseCandidates lex sem alpha rrfK)).map
        (·.id)).Nodup := by
      rw [(hperm.map (·.id)).nodup_iff, hids]
      exact nodup_dedupKeepFirst _
    rw [hybridSearch, List.map_take]
    exact h1.sublist (List.take_sublist _ _)
  · intro r hr
    have hr' : r ∈ fuseCandidates lex sem alpha rrfK :=
      hperm.subset (List.take_subset _ _ hr)
    obtain ⟨d, hd, rfl⟩ := List.mem_map.1 hr'
    rw [fuseOne_id]
    exact List.mem_append.1 (mem_dedupKeepFirst.1 hd)

/-- Witness for C10 at a concrete input. -/

theorem hybrid_ids_unique_witness :
    ((hybridSearch [exL2, exL3] [exS2] 2 (1/2) 60).map (·.id)).Nodup ∧
    ((fuseOne [exL2, exL3] [exS2] (1/2) 60 "dY").id ∈ [exL2, exL3].map (·.id) ∨
     (fuseOne [exL2, exL3] [exS2] (1/2) 60 "dY").id ∈ [exS2].map (·.id)) := by
  refine ⟨(hybrid_ids_unique [exL2, exL3] [exS2] 2 (1/2) 60).1, ?_⟩
  refine (hybrid_ids_unique [exL2, exL3] [exS2] 2 (1/2) 60).2 _ ?_
  norm_num [hybridSearch, fuseCandidates, allIds, dedupKeepFirst, fuseOne, rankMap,
    rankMapAux, sortDesc, insertDesc, exL2, exL3, exS2,
    (show ¬ (("dY" : String) = "dX") from by decide),
    (show ¬ (("dX" : String) = "dY") from by decide)]

theorem cacheLookup_filter_ne {α : Type} (c : List (String × CacheEntry α))
    (k : String) :
    cacheLookup (c.filter (fun p => decide (p.1 ≠ k))) k = none := by
  rw [cacheLookup, List.find?_eq_none.2, Option.map_none']
  intro x hx
  have h2 := (List.mem_filter.1 hx).2
  simp only [decide_eq_true_eq] at h2 ⊢
  exact h2

theorem filter_ne_idem {α : Type} (c : List (String × CacheEntry α)) (k : String) :
    ((c.filter (fun p => decide (p.1 ≠ k))).filter (fun p => decide (p.1 ≠ k)))
      = c.filter (fun p => decide (p.1 ≠ k)) := by
  apply List.filter_eq_self.2
  intro a ha
  exact (List.mem_filter.1 ha).2

theorem cacheSetBody_eq {α : Type} (c : List (String × CacheEntry α))
    (k : String) (v : α) (ttl : Option ℚ) (now defaultTtl : ℚ) :
    cacheSetBody c k v ttl now defaultTtl
      = c.filter (fun p => decide (p.1 ≠ k))
        ++ [(k, newCacheEntry v ttl now defaultTtl)] := by
  rw [cacheSetBody]
  congr 1
  split
  · rw [moveToEnd]
    rename_i hs
    rcases h : cacheLookup c k with _ | e
    · rfl
    · rw [List.filter_append, filter_ne_idem]
      have : [(k, e)].filter (fun p : String × CacheEntry α => decide (p.1 ≠ k)) = [] := by
        simp [List.filter]
      rw [this, List.append_nil]
  · rfl

theorem cacheLookup_some_mem {α : Type} {c : List (String × CacheEntry α)}
    {k : String} {e : CacheEntry α} (h : cacheLookup c k = some e) :
    k ∈ c.map (·.1) := by
  rw [cacheLookup] at h
  rcases hf : c.find? (fun p => decide (p.1 = k)) with _ | p
  · rw [hf] at h; exact Option.noConfusion h
  · have hp := List.find?_some hf
    simp only [decide_eq_true_eq] at hp
    exact hp ▸ List.mem_map_of_mem (·.1) (List.mem_of_find?_eq_some hf)

theorem map_fst_filter_ne {α : Type} (c : List (String × CacheEntry α))
    (k : String) :
    (c.filter (fun p => decide (p.1 ≠ k))).map (·.1)
      = (c.map (·.1)).filter (fun x => decide (x ≠ k)) := by
  induction c with
  | nil => rfl
  | cons p ps ih =>
    rw [List.map_cons, List.filter_cons, List.filter_cons]
    by_cases hp : p.1 = k
    · rw [if_neg (by simp [hp]), if_neg (by simp [hp])]
      exact ih
    · rw [if_pos (by simp [hp]), if_pos (by simp [hp]), List.map_cons, ih]

theorem length_filter_ne_of_nodup {l : List String} {k : String}
    (hnd : l.Nodup) (hk : k ∈ l) :
    (l.filter (fun x => decide (x ≠ k))).length = l.length - 1 := by
  induction l with
  | nil => simp at hk
  | cons x xs ih =>
    rw [List.nodup_cons] at hnd
    rcases List.mem_cons.1 hk with h | h
    · rw [List.filter_cons, if_neg (by simp [h])]
      have hfs : xs.filter (fun y => decide (y ≠ k)) = xs := by
        apply List.filter_eq_self.2
        intro a ha
        simp only [decide_eq_true_eq]
        intro he
        exact hnd.1 (h ▸ he ▸ ha)
      rw [hfs, List.length_cons]
      omega
    · have hxk : ¬ x = k := fun he => hnd.1 (he ▸ h)
      have hlen := List.length_pos.2 (List.ne_nil_of_mem h)
      rw [List.filter_cons, if_pos (by simp [hxk]), List.length_cons,
        ih hnd.2 h, List.length_cons]
      omega

/-- Eviction at capacity: a `set` of a fresh key on a full cache appends the
new key at the most-recently-used end and pops exactly the front
(least-recently-used) entry. -/

theorem cacheSet_evicts_head {α : Type} (c : List (String × CacheEntry α))
    (k : String) (v : α) (ttl : Option ℚ) (now defaultTtl : ℚ) (maxSize : ℕ)
    (hlen : c.length = maxSize) (hpos : 0 < maxSize) (hk : k ∉ c.map (·.1)) :
    (cacheSet c k v ttl now defaultTtl maxSize).map (·.1)
      = (c.map (·.1)).drop 1 ++ [k] := by
  have hfs : c.filter (fun p => decide (p.1 ≠ k)) = c :=
    List.filter_eq_self.2 (fun a ha => by
      simp only [decide_eq_true_eq]
      intro he
      exact hk (he ▸ List.mem_map_of_mem (·.1) ha))
  have hbody : cacheSetBody c k v ttl now defaultTtl
      = c ++ [(k, newCacheEntry v ttl now defaultTtl)] := by
    rw [cacheSetBody_eq, hfs]
  have hblen : (cacheSetBody c k v ttl now defaultTtl).length = maxSize + 1 := by
    rw [hbody, List.length_append, hlen]
    rfl
  rw [cacheSet, hblen, if_pos (Nat.lt_succ_self maxSize), hbody,
    List.drop_append_of_le_length (by omega), List.map_append, List.map_drop]
  rfl

/-- A non-expired hit promotes the accessed entry to the
most-recently-used end. -/

theorem cacheGet_promotes {α : Type} (c : List (String × CacheEntry α))
    (k : String) (now : ℚ) (e : CacheEntry α) (h : cacheLookup c k = some e)
    (hexp : isExpiredAt now e = false) :
    (cacheGet c k now).2 = c.filter (fun p => decide (p.1 ≠ k)) ++ [(k, e)] := by
  rw [cacheGet, h]
  simp only [hexp, Bool.false_eq_true, if_false, moveToEnd, h]

/-! ## Claim C5: TTL visibility of cache entries -/

/-- C5 counterexample: an entry created at time 0 with ttl 5, accessed at
time exactly `created_at + ttl = 5`, is still returned — the code's expiry
check `time.time() > created_at + ttl` is strict, so the claim's "get
returns none for any access at or after `created_at + ttl`" fails at the
boundary. -/

theorem cache_ttl_boundary_cex : (cacheGet exC1 "k" 5).1 ≠ none := by
  have h5 : ¬ ((0:ℚ) + 5 < 5) := by norm_num
  simp [cacheGet, cacheLookup, isExpiredAt, moveToEnd, List.find?, exC1,
    exEntry7, h5]

/-- C5 amended: a stored entry is visible to `get` iff
`now ≤ created_at + ttl`: up to and *including* the boundary instant the
value is returned (the code's expiry comparison is strict `>`), and for any
strictly later access `get` returns none and removes the entry (lazy
purge). -/

theorem cache_ttl_visibility (α : Type) (c : List (String × CacheEntry α))
    (k : String) (now : ℚ) (e : CacheEntry α) (h : cacheLookup c k = some e) :
    (now ≤ e.created_at + e.ttl → (cacheGet c k now).1 = some e.value) ∧
    (e.created_at + e.ttl < now →
      (cacheGet c k now).1 = none ∧ cacheLookup (cacheGet c k now).2 k = none) := by
  constructor
  · intro hle
    have hexp : isExpiredAt now e = false := by
      simp only [isExpiredAt, decide_eq_false_iff_not]
      exact not_lt.2 hle
    rw [cacheGet, h]
    simp [hexp]
  · intro hlt
    have hexp : isExpiredAt now e = true := by
      simp only [isExpiredAt, decide_eq_true_eq]
      exact hlt
    refine ⟨by rw [cacheGet, h]; simp [hexp], ?_⟩
    rw [cacheGet, h]
    simp only [hexp, if_true]
    exact cacheLookup_filter_ne c k

/-- Witness for the amended C5: value visible at the boundary instant,
invisible and purged strictly after it. -/

theorem cache_ttl_visibility_witness :
    (cacheGet exC1 "k" 5).1 = some 7 ∧
    ((cacheGet exC1 "k" 6).1 = none ∧ cacheLookup (cacheGet exC1 "k" 6).2 "k" = none) := by
  have hlook : cacheLookup exC1 "k" = some exEntry7 := by
    simp [cacheLookup, exC1, List.find?]
  constructor
  · exact (cache_ttl_visibility ℕ exC1 "k" 5 exEntry7 hlook).1
      (by norm_num [exEntry7])
  · exact (cache_ttl_visibility ℕ exC1 "k" 6 exEntry7 hlook).2
      (by norm_num [exEntry7])

/-! ## Claim C6: bounded-size LRU eviction -/

/-- C6: LRU behaviour of the cache.  (1) a `set` never leaves more than
`max_size` entries; (2) a `set` of a fresh key on a full cache evicts exactly
the least-recently-used (front) entry, keeping all others; (3) a non-expired
`get` hit promotes the accessed key to the most-recently-used end; (4) hence
a just-read key is never the victim of the next capacity eviction. -/

theorem cache_lru (α : Type) (defaultTtl : ℚ) (maxSize : ℕ) :
    (∀ (c : List (String × CacheEntry α)) (k : String) (v : α)
      (ttl : Option ℚ) (now : ℚ),
      c.length ≤ maxSize →
      (cacheSet c k v ttl now defaultTtl maxSize).length ≤ maxSize) ∧
    (∀ (c : List (String × CacheEntry α)) (k : String) (v : α)
      (ttl : Option ℚ) (now : ℚ),
      c.length = maxSize → 0 < maxSize → k ∉ c.map (·.1) →
      (cacheSet c k v ttl now defaultTtl maxSize).map (·.1)
        = (c.map (·.1)).drop 1 ++ [k]) ∧
    (∀ (c : List (String × CacheEntry α)) (k : String) (now : ℚ)
      (e : CacheEntry α),
      cacheLookup c k = some e → isExpiredAt now e = false →
      ((cacheGet c k now).2).map (·.1)
        = ((c.map (·.1)).filter (fun x => decide (x ≠ k))) ++ [k]) ∧
    (∀ (c : List (String × CacheEntry α)) (k : String) (now : ℚ)
      (e : CacheEntry α) (k2 : String) (v2 : α) (ttl2 : Option ℚ) (now2 : ℚ),
      cacheLookup c k = some e → isExpiredAt now e = false →
      (c.map (·.1)).Nodup → c.length = maxSize → 2 ≤ maxSize →
      k2 ∉ ((cacheGet c k now).2).map (·.1) →
      k ∈ (cacheSet (cacheGet c k now).2 k2 v2 ttl2 now2 defaultTtl maxSize).map
        (·.1)) := by
  refine ⟨?_, ?_, ?_, ?_⟩
  · intro c k v ttl now hle
    have hb : (cacheSetBody c k v ttl now defaultTtl).length ≤ c.length + 1 := by
      rw [cacheSetBody_eq, List.length_append]
      have := List.length_filter_le (fun p => decide (p.1 ≠ k)) c
      simp only [List.length_cons, List.length_nil]
      omega
    by_cases hc : maxSize < (cacheSetBody c k v ttl now defaultTtl).length
    · rw [cacheSet, if_pos hc, List.length_drop]
      omega
    · rw [cacheSet, if_neg hc]
      omega
  · intro c k v ttl now hlen hpos hk
    exact cacheSet_evicts_head c k v ttl now defaultTtl maxSize hlen hpos hk
  · intro c k now e h hexp
    rw [cacheGet_promotes c k now e h hexp, List.map_append, map_fst_filter_ne]
    rfl
  · intro c k now e k2 v2 ttl2 now2 h hexp hnd hlen hmax hk2
    have hkmem := cacheLookup_some_mem h
    have hpckeys : ((cacheGet c k now).2).map (·.1)
        = ((c.map (·.1)).filter (fun x => decide (x ≠ k))) ++ [k] := by
      rw [cacheGet_promotes c k now e h hexp, List.map_append, map_fst_filter_ne]
      rfl
    have hflen : ((c.map (·.1)).filter (fun x => decide (x ≠ k))).length
        = maxSize - 1 := by
      rw [length_filter_ne_of_nodup hnd hkmem, List.length_map, hlen]
    have hpclen : ((cacheGet c k now).2).length = maxSize := by
      have h1 := congrArg List.length hpckeys
      rw [List.length_map, List.length_append, hflen] at h1
      simp only [List.length_cons, List.length_nil] at h1
      omega
    rw [cacheSet_evicts_head _ k2 v2 ttl2 now2 defaultTtl maxSize hpclen
      (by omega) hk2, hpckeys,
      List.drop_append_of_le_length (by rw [hflen]; omega)]
    apply List.mem_append_left
    exact List.mem_append_right _ (by simp)

/-- Witness for C6 on a concrete two-entry cache of capacity 2: the size
bound, the eviction of the front key by a fresh insert, the promotion of a
read key, and the survival of the promoted key across the next eviction. -/

theorem cache_lru_witness :
    ((cacheSet exC2 "c" 3 none 1 100 2).length ≤ 2) ∧
    ((cacheSet exC2 "c" 3 none 1 100 2).map (·.1) = (exC2.map (·.1)).drop 1 ++ ["c"]) ∧
    (((cacheGet exC2 "a" 1).2).map (·.1)
      = ((exC2.map (·.1)).filter (fun x => decide (x ≠ "a"))) ++ ["a"]) ∧
    ("a" ∈ (cacheSet (cacheGet exC2 "a" 1).2 "c" 3 none 1 100 2).map (·.1)) := by
  have h := cache_lru ℕ 100 2
  have hlook : cacheLookup exC2 "a" = some exEntryA := by
    simp [cacheLookup, exC2, List.find?]
  have hexp : isExpiredAt (1 : ℚ) exEntryA = false := by
    norm_num [isExpiredAt, exEntryA]
  have hk2 : "c" ∉ ((cacheGet exC2 "a" 1).2).map (·.1) := by
    rw [h.2.2.1 exC2 "a" 1 exEntryA hlook hexp]
    norm_num [exC2, List.filter,
      (show ¬ (("b" : String) = "a") from by decide),
      (show ¬ (("c" : String) = "a") from by decide),
      (show ¬ (("c" : String) = "b") from by decide)]
  refine ⟨h.1 exC2 "c" 3 none 1 (by norm_num [exC2]),
    h.2.1 exC2 "c" 3 none 1 (by norm_num [exC2]) (by norm_num)
      (by norm_num [exC2,
        (show ¬ (("c" : String) = "a") from by decide),
        (show ¬ (("c" : String) = "b") from by decide)]),
    h.2.2.1 exC2 "a" 1 exEntryA hlook hexp,
    h.2.2.2 exC2 "a" 1 exEntryA "c" 3 none 1 hlook hexp
      (by norm_num [exC2, (show ¬ (("a" : String) = "b") from by decide)])
      (by norm_num [exC2]) (by norm_num) hk2⟩

theorem lexLoop_mem {docs : List Doc} {sourceFilter : Option String}
    {topK : ℕ} {pairs : List (ℚ × ℕ)} {count : ℕ}
    {p : ℕ × LexicalSearchResult}
    (hp : p ∈ lexLoop docs sourceFilter topK pairs count) :
    ∃ q ∈ pairs, q.2 = p.1 ∧ q.1 = p.2.score ∧ 0 < q.1 := by
  induction pairs generalizing count with
  | nil => simp [lexLoop] at hp
  | cons qh rest ih =>
    obtain ⟨score, idx⟩ := qh
    rw [lexLoop] at hp
    by_cases hs : score ≤ 0
    · rw [if_pos hs] at hp
      obtain ⟨q, hq, h⟩ := ih hp
      exact ⟨q, List.mem_cons_of_mem _ hq, h⟩
    · rw [if_neg hs] at hp
      push_neg at hs
      rcases hd : docs.get? idx with _ | doc
      · simp only [hd] at hp
        obtain ⟨q, hq, h⟩ := ih hp
        exact ⟨q, List.mem_cons_of_mem _ hq, h⟩
      · simp only [hd] at hp
        by_cases hm : sourceMismatch sourceFilter doc = true
        · rw [if_pos hm] at hp
          obtain ⟨q, hq, h⟩ := ih hp
          exact ⟨q, List.mem_cons_of_mem _ hq, h⟩
        · rw [if_neg hm] at hp
          by_cases hc : topK ≤ count + 1
          · rw [if_pos hc] at hp
            rcases List.mem_singleton.1 hp with rfl
            exact ⟨(score, idx), List.mem_cons_self _ _, rfl, rfl, hs⟩
          · rw [if_neg hc] at hp
            rcases List.mem_cons.1 hp with h | h
            · subst h
              exact ⟨(score, idx), List.mem_cons_self _ _, rfl, rfl, hs⟩
            · obtain ⟨q, hq, h2⟩ := ih h
              exact ⟨q, List.mem_cons_of_mem _ hq, h2⟩

theorem lexLoop_pairwise {docs : List Doc} {sourceFilter : Option String}
    {topK : ℕ} {pairs : List (ℚ × ℕ)} {count : ℕ}
    (hp : pairs.Pairwise (fun a b => b.1 < a.1 ∨ (a.1 = b.1 ∧ a.2 < b.2))) :
    (lexLoop docs sourceFilter topK pairs count).Pairwise
      (fun a b => a.2.score = b.2.score → a.1 < b.1) := by
  induction pairs generalizing count with
  | nil => simp [lexLoop]
  | cons qh rest ih =>
    obtain ⟨score, idx⟩ := qh
    rw [List.pairwise_cons] at hp
    rw [lexLoop]
    by_cases hs : score ≤ 0
    · rw [if_pos hs]
      exact ih hp.2
    · rw [if_neg hs]
      rcases hd : docs.get? idx with _ | doc
      · simp only [hd]
        exact ih hp.2
      · simp only [hd]
        by_cases hm : sourceMismatch sourceFilter doc = true
        · rw [if_pos hm]
          exact ih hp.2
        · rw [if_neg hm]
          by_cases hc : topK ≤ count + 1
          · rw [if_pos hc]
            exact List.pairwise_singleton _ _
          · rw [if_neg hc]
            refine List.pairwise_cons.2 ⟨?_, ih hp.2⟩
            intro b hb heq
            obtain ⟨q, hq, hqidx, hqscore, _⟩ := lexLoop_mem hb
            have hQ := hp.1 q hq
            have hsc : score = b.2.score := heq
            rcases hQ with h | h
            · exfalso
              rw [hqscore, ← hsc] at h
              exact lt_irrefl _ h
            · rw [← hqidx]
              exact h.2

/-- C7: every result returned by `LexicalSearcher.search` has a strictly
positive BM25 score (the `if score <= 0: continue` filter), and documents
with equal scores appear in the result in original document order (the
Python sort is stable and `scored_indices` enumerates documents in order);
`searchIdx` is `search` with each result paired with its document index. -/

theorem lexical_positive_scores_and_stable_ties (s : LexicalSearcher)
    (query : String) (topK : ℕ) (sourceFilter : Option String) :
    (∀ r ∈ s.search query topK sourceFilter, 0 < r.score) ∧
    (s.searchIdx query topK sourceFilter).Pairwise
      (fun a b => a.2.score = b.2.score → a.1 < b.1) ∧
    s.search query topK sourceFilter
      = (s.searchIdx query topK sourceFilter).map (·.2) := by
  refine ⟨?_, ?_, rfl⟩
  · intro r hr
    rw [LexicalSearcher.search] at hr
    obtain ⟨p, hp, rfl⟩ := List.mem_map.1 hr
    rcases hidx : s.index with _ | g
    · rw [LexicalSearcher.searchIdx] at hp
      simp only [hidx] at hp
      simp at hp
    · rw [LexicalSearcher.searchIdx] at hp
      simp only [hidx] at hp
      by_cases hq : (tokenize query).isEmpty
      · rw [if_pos hq] at hp
        simp at hp
      · rw [if_neg hq] at hp
        obtain ⟨q, _, _, hsc, hpos⟩ := lexLoop_mem hp
        exact hsc ▸ hpos
  · rcases hidx : s.index with _ | g
    · rw [LexicalSearcher.searchIdx]
      simp only [hidx]
      exact List.Pairwise.nil
    · rw [LexicalSearcher.searchIdx]
      simp only [hidx]
      by_cases hq : (tokenize query).isEmpty
      · rw [if_pos hq]
        exact List.Pairwise.nil
      · rw [if_neg hq]
        apply lexLoop_pairwise
        exact sortDesc_pairwise (fun p : ℚ × ℕ => p.1)
          (List.pairwise_map.2 (pyEnum_pairwise 0 _))

/-- Witness for C7: the single returned result of the fixture search carries
a positive score. -/

theorem lexical_positive_scores_witness : 0 < (mkLexResult exDocA 3).score :=
  (lexical_positive_scores_and_stable_ties exLexSearcher "mutual fund" 2
    none).1 _ (by decide)

/-- C8: whenever contacting the reranking service fails, `rerank` returns the
first `top_k` inputs unchanged in order with `rerank_score` equal to the
original score.  The model returns a plain list for every outcome — no
caller-visible exception exists. -/

theorem rerank_error_fallback (query : String)
    (results : List HybridSearchResult) (topK : ℕ) (e : String)
    (h : results ≠ []) :
    rerank query results topK (Except.error e) = rerankFallback results topK ∧
    (rerank query results topK (Except.error e)).map (·.id)
      = (results.take topK).map (·.id) ∧
    ∀ r ∈ rerank query results topK (Except.error e),
      r.rerank_score = r.original_score := by
  have hne : results.isEmpty = false := by
    cases results
    · exact absurd rfl h
    · rfl
  have heq : rerank query results topK (Except.error e)
      = rerankFallback results topK := by
    simp only [rerank, hne, Bool.false_eq_true, if_false]
  refine ⟨heq, ?_, ?_⟩
  · rw [heq,
      show (results.take topK).map (fun r : HybridSearchResult => r.id)
        = ((pyEnum 0 (results.take topK)).map (·.2)).map
            (fun r : HybridSearchResult => r.id) from by rw [pyEnum_map_snd],
      rerankFallback, List.map_map, List.map_map]
    rfl
  · intro r hr
    rw [heq, rerankFallback] at hr
    obtain ⟨p, _, rfl⟩ := List.mem_map.1 hr
    rfl

/-- Witness for C8 on a one-element result list and a failed service call. -/

theorem rerank_error_fallback_witness :
    rerank "q" [exH1] 3 (Except.error "boom") = rerankFallback [exH1] 3 ∧
    (rerank "q" [exH1] 3 (Except.error "boom")).map (·.id)
      = ([exH1].take 3).map (·.id) ∧
    ({ id := "dA", text := "alpha text", original_score := 2, rerank_score := 2,
       original_rank := 1, new_rank := 1, metadata := [], source := "faq" } :
      RerankedResult).rerank_score
      = ({ id := "dA", text := "alpha text", original_score := 2,
           rerank_score := 2, original_rank := 1, new_rank := 1,
           metadata := [], source := "faq" } : RerankedResult).original_score := by
  have h := rerank_error_fallback "q" [exH1] 3 "boom" (by decide)
  exact ⟨h.1, h.2.1, h.2.2 _ (by decide)⟩

/-- C9: `index_documents` fails with the count-mismatch validation error iff
the number of documents differs from the number of embeddings, and succeeds
iff they agree; the check precedes every mutation (the error branch returns
before the state is touched), so a failing call leaves the index state
unchanged. -/

theorem index_documents_mismatch (s : SemanticState) (documents : List Doc)
    (embeddings : List (List ℚ)) :
    (indexDocuments s documents embeddings
        = Except.error "Documents and embeddings count mismatch"
      ↔ documents.length ≠ embeddings.length) ∧
    ((∃ s2, indexDocuments s documents embeddings = Except.ok s2)
      ↔ documents.length = embeddings.length) := by
  by_cases h : documents.length = embeddings.length
  · rw [indexDocuments, if_neg (not_not_intro h)]
    constructor
    · constructor
      · intro habs
        exact Except.noConfusion habs
      · intro habs
        exact absurd h habs
    · exact ⟨fun _ => h, fun _ => ⟨_, rfl⟩⟩
  · rw [indexDocuments, if_pos h]
    constructor
    · exact ⟨fun _ => h, fun _ => rfl⟩
    · constructor
      · rintro ⟨s2, habs⟩
        exact Except.noConfusion habs
      · intro habs
        exact absurd habs h

/-- Witness for C9: one document and zero embeddings yield exactly the
mismatch error. -/

theorem index_documents_mismatch_witness :
    indexDocuments exSemState [exDocA] []
      = Except.error "Documents and embeddings count mismatch" :=
  (index_documents_mismatch exSemState [exDocA] []).1.2 (by decide)

/-- C4: the rebuild decision (with `clear_existing = False`) is `false` —
the expensive embedding/indexing step is skipped — exactly in the
Warm-matched state; in every other state (Cold: no file; Warm-stale:
fingerprint mismatch; Warm-corrupt: unreadable state, failed count check, or
zero documents despite a matching fingerprint) it is `true`. -/

theorem reindex_decision (stateFileExists : Bool) (stateRead : StateRead)
    (currentHash : String) (storeCount : Option ℕ) :
    shouldReindex false stateFileExists stateRead currentHash storeCount = false
      ↔ WarmMatched stateFileExists stateRead currentHash storeCount := by
  cases stateFileExists with
  | false => simp [shouldReindex, WarmMatched]
  | true =>
    cases stateRead with
    | unreadable => simp [shouldReindex, WarmMatched]
    | readOk saved =>
      by_cases hs : saved = some currentHash
      · rcases storeCount with _ | n
        · simp [shouldReindex, WarmMatched, hs]
        · by_cases hn : 0 < n
          · simp [shouldReindex, WarmMatched, hs, hn]
          · simp [shouldReindex, WarmMatched, hs, hn]
      · simp [shouldReindex, WarmMatched, hs]

/-- Witness for C4: a matched fingerprint with three stored documents skips
the rebuild. -/

theorem reindex_decision_witness :
    shouldReindex false true (StateRead.readOk (some "h")) "h" (some 3) = false :=
  (reindex_decision true (StateRead.readOk (some "h")) "h" (some 3)).2
    ⟨rfl, rfl, 3, rfl, by decide⟩

end Qonfido
